import Mathlib

/-!
Verification development for the Machine-Spirit repository, covering
src/core/Config.cpp (a flat key=value configuration store persisted to a
text file) and src/core/Paths.cpp (a registry of well-known directory
paths under a per-user root).

C++ strings are modelled as lists of characters; the process-wide
unordered_map is modelled as an association list with unique keys; the
config file on disk is modelled as an optional character list (none
meaning the file does not exist).
-/

namespace MachineSpirit

/-- A std::string, modelled as its character sequence. -/
abbrev Str := List Char

/-- The type of Config::s_values, an unordered_map from string to string. -/
abbrev ConfigMap := List (Str × Str)

namespace Config

/-- Map lookup, as used by s_values.count(key) and by find-style access. -/
def findVal : ConfigMap → Str → Option Str
  | [], _ => none
  | (k, v) :: rest, key => if k = key then some v else findVal rest key

/-- The insertion `s_values[key] = val;`: overwrite in place when the key is
present, append a fresh entry otherwise. -/
def setVal : ConfigMap → Str → Str → ConfigMap
  | [], key, val => [(key, val)]
  | (k, v) :: rest, key, val =>
      if k = key then (key, val) :: rest else (k, v) :: setVal rest key val

/-- `line.find('=')` followed by the two substr calls of Config::load: split
a line at its first '=' into the key (before it) and the value (everything
after it); none when the line has no '='. -/
def splitAtEq : Str → Option (Str × Str)
  | [] => none
  | c :: rest =>
      if c = '=' then some ([], rest)
      else
        match splitAtEq rest with
        | none => none
        | some (k, v) => some (c :: k, v)

/-- One iteration of the `while (std::getline(in, line))` loop body of
Config::load: skip the line when it has no '=', otherwise store the split. -/
def loadLine (m : ConfigMap) (line : Str) : ConfigMap :=
  match splitAtEq line with
  | none => m
  | some (k, v) => setVal m k v

/-- The sequence of lines std::getline yields on a file content: lines are
terminated by a newline character that is consumed, and a final unterminated
line is still produced. -/
def splitLines : Str → List Str
  | [] => []
  | c :: rest =>
      if c = '\n' then [] :: splitLines rest
      else
        match splitLines rest with
        | [] => [[c]]
        | l :: ls => (c :: l) :: ls

/-- The whole read loop of Config::load over a given file content. -/
def loadContent (m : ConfigMap) (content : Str) : ConfigMap :=
  (splitLines content).foldl loadLine m

/-- The file content Config::save writes: every entry as key, '=', value,
newline, in iteration order. -/
def saveContent (m : ConfigMap) : Str :=
  (m.map (fun kv => kv.1 ++ '=' :: kv.2 ++ ['\n'])).flatten

/-- The observable state of the store: the in-memory map together with the
config file (`none` when the file does not exist on disk). -/
structure SysState where
  values : ConfigMap
  file : Option Str
deriving DecidableEq

/-- Config::save: rewrite the whole file from the in-memory map. -/
def save (s : SysState) : SysState :=
  { s with file := some (saveContent s.values) }

/-- Config::load: when the file does not exist, call save() to create it and
return; otherwise read every line into the in-memory map. -/
def load (s : SysState) : SysState :=
  match s.file with
  | none => save s
  | some content => { s with values := loadContent s.values content }

/-- `s_values[key]` as an rvalue: std::unordered_map::operator[], which
default-inserts an empty value when the key is absent. -/
def indexOp (m : ConfigMap) (key : Str) : Str × ConfigMap :=
  match findVal m key with
  | some v => (v, m)
  | none => ([], setVal m key [])

/-- Config::get with its effect on the map: when count(key) is nonzero
return s_values[key], else return the empty string. -/
def getS (m : ConfigMap) (key : Str) : Str × ConfigMap :=
  if (findVal m key).isSome then indexOp m key else ([], m)

/-- The return value of Config::get. -/
def get (m : ConfigMap) (key : Str) : Str := (getS m key).1

/-- Config::set: insert or overwrite the mapping, then save(). -/
def set (s : SysState) (key v : Str) : SysState :=
  save { s with values := setVal s.values key v }

/-- Config::getConfigFilePath given the home-directory value. -/
def getConfigFilePath (home : String) : String :=
  home ++ "/.machine_spirit/config.ini"

/-- The last value the lines of a file assign to a key: later lines take
priority over earlier ones, lines without '=' assign nothing. -/
def linesVal : List Str → Str → Option Str
  | [], _ => none
  | line :: rest, k =>
      match linesVal rest k with
      | some v => some v
      | none =>
        match splitAtEq line with
        | none => none
        | some (key, v) => if key = k then some v else none

/-- The keys that the lines of a file content assign. -/
def fileKeys (content : Str) : List Str :=
  (splitLines content).filterMap (fun l => (splitAtEq l).map Prod.fst)

end Config

namespace Paths

/-- The initial value of Paths::s_root, before init() ever runs. -/
def s_root_initial : String := ""

/-- Paths::root: returns the stored root path. -/
def root (s_root : String) : String := s_root

/-- The value Paths::init stores into s_root, given the home directory. -/
def init (home : String) : String := home ++ "/.machine_spirit/"

/-- Paths::config -/
def config (s_root : String) : String := s_root ++ "config/"

/-- Paths::logs -/
def logs (s_root : String) : String := s_root ++ "logs/"

/-- Paths::models -/
def models (s_root : String) : String := s_root ++ "models/"

/-- Paths::knowledge -/
def knowledge (s_root : String) : String := s_root ++ "knowledge/"

/-- Paths::memory -/
def memory (s_root : String) : String := s_root ++ "memory/"

/-- Paths::backups -/
def backups (s_root : String) : String := s_root ++ "backups/"

/-- Paths::themes -/
def themes (s_root : String) : String := s_root ++ "themes/"

/-- Paths::hive -/
def hive (s_root : String) : String := s_root ++ "hive/"

/-- Paths::tmp -/
def tmp (s_root : String) : String := s_root ++ "tmp/"

end Paths

namespace Config

theorem findVal_setVal (m : ConfigMap) (key val k : Str) :
    findVal (setVal m key val) k = if key = k then some val else findVal m k := by
  induction m with
  | nil => simp [setVal, findVal]
  | cons kv rest ih =>
    obtain ⟨k0, v0⟩ := kv
    by_cases h : k0 = key
    · subst h
      by_cases h2 : k0 = k <;> simp [setVal, findVal, h2]
    · by_cases h2 : k0 = k
      · subst h2
        have h3 : ¬ key = k0 := fun e => h e.symm
        simp [setVal, findVal, h, h3]
      · simp [setVal, findVal, h, h2, ih]

theorem findVal_foldl_loadLine (lines : List Str) (m : ConfigMap) (k : Str) :
    findVal (lines.foldl loadLine m) k =
      match linesVal lines k with
      | some v => some v
      | none => findVal m k := by
  induction lines generalizing m with
  | nil => simp [linesVal]
  | cons line rest ih =>
    rw [List.foldl_cons, ih]
    cases hr : linesVal rest k with
    | some v => simp [linesVal, hr]
    | none =>
      cases hs : splitAtEq line with
      | none => simp [linesVal, hr, hs, loadLine]
      | some kv =>
        obtain ⟨key, v⟩ := kv
        by_cases hk : key = k <;>
          simp [linesVal, hr, hs, loadLine, findVal_setVal, hk]

theorem splitAtEq_eq_none (line : Str) (h : ('=' : Char) ∉ line) :
    splitAtEq line = none := by
  induction line with
  | nil => rfl
  | cons c rest ih =>
    have hc : c ≠ '=' := fun e => h (e ▸ List.mem_cons_self c rest)
    simp [splitAtEq, hc, ih (fun hm => h (List.mem_cons_of_mem c hm))]

theorem splitAtEq_mk (k v : Str) (h : ('=' : Char) ∉ k) :
    splitAtEq (k ++ '=' :: v) = some (k, v) := by
  induction k with
  | nil => simp [splitAtEq]
  | cons c rest ih =>
    have hc : c ≠ '=' := fun e => h (e ▸ List.mem_cons_self c rest)
    simp [splitAtEq, hc, ih (fun hm => h (List.mem_cons_of_mem c hm))]

theorem splitLines_append (l rest : Str) (h : ('\n' : Char) ∉ l) :
    splitLines (l ++ '\n' :: rest) = l :: splitLines rest := by
  induction l with
  | nil => simp [splitLines]
  | cons c l ih =>
    have hc : c ≠ '\n' := fun e => h (e ▸ List.mem_cons_self c l)
    have h2 : ('\n' : Char) ∉ l := fun hm => h (List.mem_cons_of_mem c hm)
    rw [List.cons_append, splitLines, if_neg hc, ih h2]

theorem splitLines_saveContent (m : ConfigMap)
    (h : ∀ kv ∈ m, ('\n' : Char) ∉ kv.1 ∧ ('\n' : Char) ∉ kv.2) :
    splitLines (saveContent m) = m.map (fun kv => kv.1 ++ '=' :: kv.2) := by
  induction m with
  | nil => rfl
  | cons kv rest ih =>
    obtain ⟨hk, hv⟩ := h kv (List.mem_cons_self kv rest)
    have hline : ('\n' : Char) ∉ kv.1 ++ '=' :: kv.2 := by
      intro hm
      rcases List.mem_append.mp hm with h1 | h2
      · exact hk h1
      · rcases List.mem_cons.mp h2 with h3 | h4
        · exact absurd h3 (by decide)
        · exact hv h4
    have hstep : saveContent (kv :: rest) =
        (kv.1 ++ '=' :: kv.2) ++ '\n' :: saveContent rest := by
      simp [saveContent, List.append_assoc]
    rw [List.map_cons, hstep, splitLines_append _ _ hline,
      ih (fun e he => h e (List.mem_cons_of_mem kv he))]

theorem setVal_append (m : ConfigMap) (key v : Str) (h : ∀ kv ∈ m, kv.1 ≠ key) :
    setVal m key v = m ++ [(key, v)] := by
  induction m with
  | nil => rfl
  | cons kv rest ih =>
    obtain ⟨k0, v0⟩ := kv
    have hne : k0 ≠ key := h (k0, v0) (List.mem_cons_self _ _)
    simp [setVal, hne, ih (fun e he => h e (List.mem_cons_of_mem _ he))]

theorem foldl_loadLine_entries (m : ConfigMap) :
    ∀ acc : ConfigMap, ((acc ++ m).map Prod.fst).Nodup →
      (∀ kv ∈ m, ('=' : Char) ∉ kv.1) →
      (m.map (fun kv => kv.1 ++ '=' :: kv.2)).foldl loadLine acc = acc ++ m := by
  induction m with
  | nil => intro acc _ _; simp
  | cons kv rest ih =>
    intro acc hnd hcl
    obtain ⟨k0, v0⟩ := kv
    have hk : ('=' : Char) ∉ k0 := hcl (k0, v0) (List.mem_cons_self _ _)
    have hk0 : k0 ∉ acc.map Prod.fst := by
      rw [List.map_append] at hnd
      have hdisj := (List.nodup_append.mp hnd).2.2
      intro hmem
      exact hdisj hmem (by simp)
    have hstep : loadLine acc (k0 ++ '=' :: v0) = acc ++ [(k0, v0)] := by
      rw [loadLine, splitAtEq_mk _ _ hk]
      exact setVal_append _ _ _
        (fun e he heq => hk0 (heq ▸ List.mem_map_of_mem Prod.fst he))
    have hassoc : acc ++ (k0, v0) :: rest = (acc ++ [(k0, v0)]) ++ rest := by
      simp
    rw [List.map_cons, List.foldl_cons, hstep,
      ih (acc ++ [(k0, v0)]) (by rw [← hassoc]; exact hnd)
        (fun e he => hcl e (List.mem_cons_of_mem _ he)), hassoc]

theorem linesVal_eq_none (lines : List Str) (k : Str)
    (h : k ∉ lines.filterMap (fun l => (splitAtEq l).map Prod.fst)) :
    linesVal lines k = none := by
  induction lines with
  | nil => rfl
  | cons line rest ih =>
    have hrest : k ∉ rest.filterMap (fun l => (splitAtEq l).map Prod.fst) := by
      intro hm
      apply h
      rw [List.mem_filterMap] at hm ⊢
      obtain ⟨a, ha, he⟩ := hm
      exact ⟨a, List.mem_cons_of_mem _ ha, he⟩
    rw [linesVal, ih hrest]
    cases hs : splitAtEq line with
    | none => rfl
    | some kv =>
      obtain ⟨key, v⟩ := kv
      have hk : key ≠ k := by
        intro he
        apply h
        rw [List.mem_filterMap]
        exact ⟨line, List.mem_cons_self _ _, by rw [hs, he]; rfl⟩
      simp [hk]

/-- C1: for every mapping whose keys and values contain no '=' and no
newline characters, calling save() and then load() into a fresh (empty)
store yields a mapping identical to the original. -/
theorem c1_save_load_round_trip (m : ConfigMap) (f : Option Str)
    (hnodup : (m.map Prod.fst).Nodup)
    (hclean : ∀ kv ∈ m, ('=' : Char) ∉ kv.1 ∧ ('=' : Char) ∉ kv.2 ∧
      ('\n' : Char) ∉ kv.1 ∧ ('\n' : Char) ∉ kv.2) :
    (load { values := [], file := (save { values := m, file := f }).file }).values
      = m := by
  show loadContent [] (saveContent m) = m
  rw [loadContent,
    splitLines_saveContent m (fun kv h => ⟨(hclean kv h).2.2.1, (hclean kv h).2.2.2⟩)]
  have := foldl_loadLine_entries m [] (by simpa using hnodup)
    (fun kv h => (hclean kv h).1)
  simpa using this

theorem c1_witness :
    ((([("a".toList, "b".toList)] : ConfigMap).map Prod.fst).Nodup) ∧
    (load (SysState.mk []
        (save (SysState.mk [("a".toList, "b".toList)] none)).file)).values
      = [("a".toList, "b".toList)] :=
  ⟨by decide, c1_save_load_round_trip _ none (by decide) (by decide)⟩

/-- C2: for every line processed by load(), a line without '=' adds no
entry; otherwise the key is the text before the first '=' and the value is
everything after it (embedded '=' included), overwriting any existing
in-memory value for that key; in particular the line a=b=c gives key a and
value b=c. -/
theorem c2_load_line_split (m : ConfigMap) (line : Str) :
    ((('=' : Char) ∉ line) → loadLine m line = m) ∧
    (∀ k v : Str, ('=' : Char) ∉ k → line = k ++ '=' :: v →
      loadLine m line = setVal m k v ∧ findVal (loadLine m line) k = some v) ∧
    findVal (loadLine m "a=b=c".toList) "a".toList = some "b=c".toList := by
  refine ⟨?_, ?_, ?_⟩
  · intro h
    rw [loadLine, splitAtEq_eq_none line h]
  · intro k v hk hline
    subst hline
    have he : loadLine m (k ++ '=' :: v) = setVal m k v := by
      rw [loadLine, splitAtEq_mk _ _ hk]
    exact ⟨he, by rw [he, findVal_setVal]; simp⟩
  · have hs : splitAtEq "a=b=c".toList = some ("a".toList, "b=c".toList) := by
      decide
    rw [loadLine, hs, findVal_setVal]
    simp

theorem c2_witness :
    loadLine [] "novalue".toList = [] ∧
    loadLine [] "a=b=c".toList = setVal [] "a".toList "b=c".toList :=
  ⟨(c2_load_line_split [] "novalue".toList).1 (by decide),
   ((c2_load_line_split [] "a=b=c".toList).2.1 "a".toList "b=c".toList
     (by decide) (by decide)).1⟩

/-- C3: get(key) returns the stored value when the key is present and the
empty string when absent; get(k) right after set(k, v) returns v; and a key
stored with an empty value is indistinguishable via get from an absent
key. -/
theorem c3_get_semantics (m : ConfigMap) (k v : Str) (s : SysState) :
    (findVal m k = some v → get m k = v) ∧
    (findVal m k = none → get m k = []) ∧
    get (Config.set s k v).values k = v ∧
    (findVal m k = none → ∀ q : Str, get (setVal m k []) q = get m q) := by
  refine ⟨?_, ?_, ?_, ?_⟩
  · intro h
    simp [get, getS, indexOp, h]
  · intro h
    simp [get, getS, h]
  · simp [Config.set, save, get, getS, indexOp, findVal_setVal]
  · intro h q
    by_cases hq : k = q
    · subst hq
      simp [get, getS, indexOp, findVal_setVal, h]
    · cases hfq : findVal m q with
      | none => simp [get, getS, indexOp, findVal_setVal, hq, hfq]
      | some w => simp [get, getS, indexOp, findVal_setVal, hq, hfq]

theorem c3_witness :
    get [("k".toList, "v".toList)] "k".toList = "v".toList ∧
    get ([] : ConfigMap) "k".toList = [] ∧
    get (Config.set { values := [], file := none } "k".toList "v".toList).values
      "k".toList = "v".toList :=
  ⟨(c3_get_semantics [("k".toList, "v".toList)] "k".toList "v".toList
      { values := [], file := none }).1 (by decide),
   (c3_get_semantics [] "k".toList "v".toList
      { values := [], file := none }).2.1 (by decide),
   (c3_get_semantics [] "k".toList "v".toList
      { values := [], file := none }).2.2.1⟩

/-- C4: load() with no config file calls save() to create the file from the
current state and returns; with an empty in-memory mapping this creates an
empty file and leaves the mapping empty. -/
theorem c4_load_missing_file (m : ConfigMap) :
    load { values := m, file := none } = save { values := m, file := none } ∧
    (load { values := m, file := none }).values = m ∧
    load { values := [], file := none } = { values := [], file := some [] } :=
  ⟨rfl, rfl, rfl⟩

/-- C5: with the config file present and its content fixed, calling load()
twice in a row leaves the in-memory mapping in the same state as calling
load() once. -/
theorem c5_load_idempotent (m : ConfigMap) (content : Str) (k : Str) :
    findVal (load (load { values := m, file := some content })).values k =
      findVal (load { values := m, file := some content }).values k := by
  simp only [load, loadContent]
  rw [findVal_foldl_loadLine, findVal_foldl_loadLine]
  cases h : linesVal (splitLines content) k with
  | some v => simp [h]
  | none => simp [h, findVal_foldl_loadLine]

/-- C6: for every state of the stored root path, each of the nine category
accessors returns root() concatenated with its category name and a trailing
slash, as a pure string computation with no check that init() was called. -/
theorem c6_category_accessors (r : String) :
    Paths.config r = Paths.root r ++ "config/" ∧
    Paths.logs r = Paths.root r ++ "logs/" ∧
    Paths.models r = Paths.root r ++ "models/" ∧
    Paths.knowledge r = Paths.root r ++ "knowledge/" ∧
    Paths.memory r = Paths.root r ++ "memory/" ∧
    Paths.backups r = Paths.root r ++ "backups/" ∧
    Paths.themes r = Paths.root r ++ "themes/" ∧
    Paths.hive r = Paths.root r ++ "hive/" ∧
    Paths.tmp r = Paths.root r ++ "tmp/" :=
  ⟨rfl, rfl, rfl, rfl, rfl, rfl, rfl, rfl, rfl⟩

/-- C7: root() is the empty string before init() ever runs, and after
init() it is the home directory value concatenated with
/.machine_spirit/. -/
theorem c7_root_value :
    Paths.root Paths.s_root_initial = "" ∧
    ∀ home : String, Paths.root (Paths.init home) = home ++ "/.machine_spirit/" :=
  ⟨rfl, fun _ => rfl⟩

/-- C9: load() only inserts or overwrites keys read from the file: every
in-memory entry whose key is not assigned by any file line keeps its value,
and a load() with no file present leaves the mapping untouched. -/
theorem c9_load_frame (m : ConfigMap) :
    (∀ (content : Str) (k : Str), k ∉ fileKeys content →
      findVal (load { values := m, file := some content }).values k = findVal m k) ∧
    (load { values := m, file := none }).values = m := by
  refine ⟨?_, rfl⟩
  intro content k h
  simp only [load, loadContent]
  rw [findVal_foldl_loadLine, linesVal_eq_none _ _ h]

theorem c9_witness :
    ("k".toList ∉ fileKeys "x=1\n".toList) ∧
    findVal (load (SysState.mk [("k".toList, "v".toList)]
        (some "x=1\n".toList))).values "k".toList =
      findVal [("k".toList, "v".toList)] "k".toList :=
  ⟨by decide, (c9_load_frame _).1 _ _ (by decide)⟩

/-- C10: get() leaves the mapping unchanged: querying an absent key returns
the empty string without inserting it, so a subsequent save() writes the
same content. -/
theorem c10_get_no_mutation (m : ConfigMap) (k : Str) :
    (getS m k).2 = m ∧ saveContent (getS m k).2 = saveContent m ∧
    (findVal m k = none → (getS m k).1 = []) := by
  have h2 : (getS m k).2 = m := by
    cases hf : findVal m k with
    | none => simp [getS, indexOp, hf]
    | some v => simp [getS, indexOp, hf]
  refine ⟨h2, by rw [h2], ?_⟩
  intro h
  simp [getS, h]

theorem c10_witness :
    (getS [] "k".toList).2 = ([] : ConfigMap) ∧ (getS [] "k".toList).1 = [] :=
  ⟨(c10_get_no_mutation [] "k".toList).1,
   (c10_get_no_mutation [] "k".toList).2.2 (by decide)⟩

end Config

end MachineSpirit
